import Mathlib

/-!
Verification of the goslogx structured-logging library's masking engine and
stack-trace reformatting writer.

Strings and byte buffers are modelled as `List Char` (the inputs exercised by
the specification are ASCII, where Go's byte indexing and this character
indexing agree).  Each definition is a direct transcription of the
corresponding Go function from the repository's source (`dto.go`,
`goslogx.go`); doc comments name the source function.
-/

namespace Goslogx

/-- Model of ASCII lowering as performed by Go's strings.ToLower on the
inputs of interest (the classifier patterns are all ASCII). -/
def toLowerChar (c : Char) : Char :=
  if 'A' ≤ c ∧ c ≤ 'Z' then Char.ofNat (c.toNat + 32) else c

/-- Model of strings.ReplaceAll(s, "-", "_"): a single-character replacement
is a pointwise map. -/
def replaceDash (s : List Char) : List Char :=
  s.map (fun c => if c = '-' then '_' else c)

/-- The normalisation performed at the top of shouldMaskField (dto.go):
strings.ToLower(strings.ReplaceAll(fieldName, "-", "_")). -/
def normalizeName (s : List Char) : List Char :=
  (replaceDash s).map toLowerChar

/-- Boolean prefix test on character lists (pattern first). -/
def isPrefixL : List Char → List Char → Bool
  | [], _ => true
  | _ :: _, [] => false
  | a :: as, b :: bs => a = b && isPrefixL as bs

/-- Model of strings.Contains(s, pat): some suffix of s starts with pat. -/
def containsL : List Char → List Char → Bool
  | [], pat => isPrefixL pat []
  | c :: t, pat => isPrefixL pat (c :: t) || containsL t pat

/-- Model of bytes.Index(s, pat): index of the first occurrence of pat. -/
def indexOfL : List Char → List Char → Option Nat
  | [], pat => if isPrefixL pat [] then some 0 else none
  | c :: t, pat =>
    if isPrefixL pat (c :: t) then some 0 else (indexOfL t pat).map (· + 1)

/-- maskType from dto.go: the masking strategy for a field. -/
inductive maskType where
  | maskNone : maskType
  | maskFull : maskType
  | maskPartial : maskType
deriving DecidableEq, Repr

export maskType (maskNone maskFull maskPartial)

/-- partialMaskFields from dto.go: patterns for fields that should show
first/last characters. -/
def partialMaskFields : List (List Char) :=
  ["username".data, "user_name".data, "email".data, "phone".data,
   "mobile".data, "access_key".data, "api_key".data, "client_id".data,
   "user_id".data]

/-- fullMaskFields from dto.go: patterns for fields that should be
completely hidden. -/
def fullMaskFields : List (List Char) :=
  ["password".data, "passwd".data, "pwd".data, "secret".data,
   "secret_key".data, "token".data, "auth".data, "authorization".data,
   "bearer".data, "credential".data, "private_key".data, "api_secret".data]

/-- shouldMaskField from dto.go: normalise the name, check the full-mask
patterns first (each by substring containment), then the partial-mask
patterns. -/
def shouldMaskField (fieldName : List Char) : maskType :=
  let lower := normalizeName fieldName
  if fullMaskFields.any (fun pattern => containsL lower pattern) then maskFull
  else if partialMaskFields.any (fun pattern => containsL lower pattern) then
    maskPartial
  else maskNone

/-- maskMiddle from dto.go: keep the first 2 and last 2 characters, mask the
middle; strings of length at most 4 collapse to "****". -/
def maskMiddle (s : List Char) : List Char :=
  if s.length ≤ 4 then "****".data
  else s.take 2 ++ "****".data ++ s.drop (s.length - 2)

/-- maskHttpHeaders from dto.go: classify each header name; mask every value
of a classified header, copy unclassified (or empty) value lists through. -/
def maskHttpHeaders (headers : List (List Char × List (List Char))) :
    List (List Char × List (List Char)) :=
  headers.map (fun kv =>
    let mt := shouldMaskField kv.1
    if mt ≠ maskNone ∧ kv.2.length > 0 then
      (kv.1, kv.2.map (fun v => if mt = maskFull then "****".data else maskMiddle v))
    else (kv.1, kv.2))

/-- Generic JSON tree, the shape encoding/json's Unmarshal produces for an
interface target.  Numbers keep their source token (the masking code never
inspects them).  Objects are association lists kept in the key order that
json.Marshal emits for a Go map: lexicographically sorted keys, a later
duplicate key in the source having replaced an earlier one (Go map
semantics). -/
inductive JVal where
  | str : List Char → JVal
  | num : List Char → JVal
  | bool : Bool → JVal
  | null : JVal
  | arr : List JVal → JVal
  | obj : List (List Char × JVal) → JVal

mutual

/-- maskJSONValue from dto.go: dispatch on the runtime shape of a decoded
JSON value; objects and arrays recurse, all other values pass through. -/
def maskJSONValue : JVal → JVal
  | .obj m => .obj (maskJSONMap m)
  | .arr a => .arr (maskJSONArr a)
  | v => v

/-- The array branch of maskJSONValue: mask every element. -/
def maskJSONArr : List JVal → List JVal
  | [] => []
  | v :: rest => maskJSONValue v :: maskJSONArr rest

/-- maskJSONMap from dto.go: classify each key and transform its value. -/
def maskJSONMap : List (List Char × JVal) → List (List Char × JVal)
  | [] => []
  | (k, v) :: rest => (k, maskJSONEntry k v) :: maskJSONMap rest

/-- The switch body of maskJSONMap's loop: string values are obscured
according to the key's classification, nested objects and arrays recurse,
and every other value is stored unchanged. -/
def maskJSONEntry (k : List Char) : JVal → JVal
  | .str s =>
    match shouldMaskField k with
    | maskFull => .str "****".data
    | maskPartial => .str (maskMiddle s)
    | maskNone => .str s
  | .obj m => .obj (maskJSONMap m)
  | .arr a => .arr (maskJSONArr a)
  | v => v

end

/-- JSON string escaping as json.Marshal performs it for the characters the
repository's data can contain (HTML escaping is not modelled; none of the
specification's examples exercise it). -/
def escapeChar (c : Char) : List Char :=
  if c = '"' then ['\\', '"']
  else if c = '\\' then ['\\', '\\']
  else if c = '\n' then ['\\', 'n']
  else if c = '\t' then ['\\', 't']
  else if c = '\r' then ['\\', 'r']
  else [c]

/-- Escape a whole string for serialization. -/
def escapeStr : List Char → List Char
  | [] => []
  | c :: rest => escapeChar c ++ escapeStr rest

mutual

/-- json.Marshal on a decoded-and-masked JSON tree.  Object entries are
emitted in stored order, which by construction (see parseJSON) is the
sorted order Go's Marshal uses for maps. -/
def serialize : JVal → List Char
  | .str s => '"' :: (escapeStr s ++ ['"'])
  | .num t => t
  | .bool b => if b then "true".data else "false".data
  | .null => "null".data
  | .arr l => '[' :: (serializeArr l ++ [']'])
  | .obj m => '{' :: (serializeObj m ++ ['}'])

/-- Comma-separated serialization of array elements. -/
def serializeArr : List JVal → List Char
  | [] => []
  | [v] => serialize v
  | v :: rest => serialize v ++ ',' :: serializeArr rest

/-- Comma-separated serialization of object entries. -/
def serializeObj : List (List Char × JVal) → List Char
  | [] => []
  | [(k, v)] => '"' :: (escapeStr k ++ '"' :: ':' :: serialize v)
  | (k, v) :: rest =>
    '"' :: (escapeStr k ++ '"' :: ':' :: (serialize v ++ ',' :: serializeObj rest))

end

/-- JSON whitespace. -/
def isWs (c : Char) : Bool := c = ' ' || c = '\t' || c = '\n' || c = '\r'

/-- Skip leading whitespace. -/
def skipWs : List Char → List Char
  | [] => []
  | c :: t => if isWs c then skipWs t else c :: t

/-- Decode one escape sequence inside a JSON string literal. -/
def decodeEscape (e : Char) : Option Char :=
  if e = '"' then some '"'
  else if e = '\\' then some '\\'
  else if e = '/' then some '/'
  else if e = 'n' then some '\n'
  else if e = 't' then some '\t'
  else if e = 'r' then some '\r'
  else none

/-- Parse the body of a JSON string literal (the opening quote already
consumed), returning the decoded content and the input after the closing
quote.  Raw control characters are rejected, as encoding/json does. -/
def parseStringBody : List Char → Option (List Char × List Char)
  | [] => none
  | '"' :: rest => some ([], rest)
  | '\\' :: rest =>
    match rest with
    | [] => none
    | e :: rest₂ =>
      match decodeEscape e with
      | none => none
      | some c => (parseStringBody rest₂).map (fun p => (c :: p.1, p.2))
  | c :: rest =>
    if c.toNat < 32 then none
    else (parseStringBody rest).map (fun p => (c :: p.1, p.2))

/-- The characters a JSON number token is made of. -/
def isNumChar (c : Char) : Bool :=
  ('0' ≤ c && c ≤ '9') || c = '-' || c = '+' || c = '.' || c = 'e' || c = 'E'

/-- Parse a JSON number token: the maximal run of number characters, which
must be nonempty and start with a digit or a minus sign.  (This accepts a
mild superset of Go's number grammar; nothing in the specification
distinguishes them.) -/
def parseNumber (s : List Char) : Option (List Char × List Char) :=
  match s.takeWhile isNumChar with
  | [] => none
  | c :: tok =>
    if c = '-' || ('0' ≤ c && c ≤ '9') then
      some (c :: tok, s.dropWhile isNumChar)
    else none

/-- Strict lexicographic (bytewise, as sort.Strings) order on keys. -/
def lexLt : List Char → List Char → Bool
  | [], [] => false
  | [], _ :: _ => true
  | _ :: _, [] => false
  | a :: as, b :: bs =>
    if a.toNat < b.toNat then true
    else if b.toNat < a.toNat then false
    else lexLt as bs

/-- Insert a key/value pair into a key-sorted association list, replacing an
existing binding of the same key (Go map assignment, with Marshal's sorted
iteration order maintained). -/
def objInsert (k : List Char) (v : JVal) :
    List (List Char × JVal) → List (List Char × JVal)
  | [] => [(k, v)]
  | (k₂, v₂) :: rest =>
    if k = k₂ then (k, v) :: rest
    else if lexLt k k₂ then (k, v) :: (k₂, v₂) :: rest
    else (k₂, v₂) :: objInsert k v rest

mutual

/-- Parse one JSON value, with a fuel bound on recursion depth.  Models
encoding/json's grammar for the constructs the repository's payloads use. -/
def parseValue : Nat → List Char → Option (JVal × List Char)
  | 0, _ => none
  | fuel + 1, s =>
    match skipWs s with
    | '\x7b' :: rest =>
      match skipWs rest with
      | '\x7d' :: rest₂ => some (.obj [], rest₂)
      | _ => parseObjEntries fuel rest []
    | '[' :: rest =>
      match skipWs rest with
      | ']' :: rest₂ => some (.arr [], rest₂)
      | _ => parseArrEntries fuel rest []
    | '"' :: rest => (parseStringBody rest).map (fun p => (.str p.1, p.2))
    | 't' :: rest =>
      if isPrefixL "rue".data rest then some (.bool true, rest.drop 3) else none
    | 'f' :: rest =>
      if isPrefixL "alse".data rest then some (.bool false, rest.drop 4) else none
    | 'n' :: rest =>
      if isPrefixL "ull".data rest then some (.null, rest.drop 3) else none
    | other => (parseNumber other).map (fun p => (.num p.1, p.2))

/-- Parse the entries of a nonempty JSON object (input positioned after the
opening brace or a separating comma). -/
def parseObjEntries (fuel : Nat) (s : List Char)
    (acc : List (List Char × JVal)) : Option (JVal × List Char) :=
  match fuel with
  | 0 => none
  | fuel + 1 =>
    match skipWs s with
    | '"' :: rest =>
      match parseStringBody rest with
      | none => none
      | some (key, rest₁) =>
        match skipWs rest₁ with
        | ':' :: rest₂ =>
          match parseValue fuel rest₂ with
          | none => none
          | some (v, rest₃) =>
            match skipWs rest₃ with
            | ',' :: rest₄ => parseObjEntries fuel rest₄ (objInsert key v acc)
            | '\x7d' :: rest₄ => some (.obj (objInsert key v acc), rest₄)
            | _ => none
        | _ => none
    | _ => none

/-- Parse the elements of a nonempty JSON array (input positioned after the
opening bracket or a separating comma). -/
def parseArrEntries (fuel : Nat) (s : List Char)
    (acc : List JVal) : Option (JVal × List Char) :=
  match fuel with
  | 0 => none
  | fuel + 1 =>
    match parseValue fuel s with
    | none => none
    | some (v, rest) =>
      match skipWs rest with
      | ',' :: rest₁ => parseArrEntries fuel rest₁ (acc ++ [v])
      | ']' :: rest₁ => some (.arr (acc ++ [v]), rest₁)
      | _ => none

end

/-- json.Unmarshal into an interface value: parse one JSON value and require
only trailing whitespace after it. -/
def parseJSON (s : List Char) : Option JVal :=
  match parseValue (s.length + 1) s with
  | some (v, rest) => if skipWs rest = [] then some v else none
  | none => none

/-- maskJSONString from dto.go: empty input and unparseable input are
returned unchanged; otherwise the decoded tree is masked and re-marshalled
(Marshal on these trees is total, so its error branch never fires). -/
def maskJSONString (s : List Char) : List Char :=
  if s = [] then s
  else
    match parseJSON s with
    | none => s
    | some v => serialize (maskJSONValue v)

mutual

/-- Erase string leaf contents, keeping every key, every non-string leaf and
the whole nesting structure: two values have the same shape in the sense of
the specification iff their erasures are equal. -/
def shape : JVal → JVal
  | .str _ => .str []
  | .arr l => .arr (shapeArr l)
  | .obj m => .obj (shapeObj m)
  | v => v

/-- Elementwise shape of an array. -/
def shapeArr : List JVal → List JVal
  | [] => []
  | v :: rest => shape v :: shapeArr rest

/-- Entrywise shape of an object (keys kept verbatim). -/
def shapeObj : List (List Char × JVal) → List (List Char × JVal)
  | [] => []
  | (k, v) :: rest => (k, shape v) :: shapeObj rest

end

/-- The top-level key list of a JSON value (empty for non-objects). -/
def jkeys : JVal → List (List Char)
  | .obj m => m.map (fun kv => kv.1)
  | _ => []

/-- A string is round-trip wellformed when each character is either one of
the explicitly escaped ones or a non-control character. -/
def wfStr (s : List Char) : Bool :=
  s.all fun c =>
    c = '"' || c = '\\' || c = '\n' || c = '\t' || c = '\r' || 32 ≤ c.toNat

/-- A number token as the parser produces it: nonempty, made of number
characters, starting with a digit or minus sign. -/
def wfNum : List Char → Bool
  | [] => false
  | c :: tok => (c = '-' || ('0' ≤ c && c ≤ '9')) && (c :: tok).all isNumChar

/-- Does a key precede the first key of an association list? -/
def ltHead (k : List Char) : List (List Char × JVal) → Bool
  | [] => true
  | (k₂, _) :: _ => lexLt k k₂

mutual

/-- Wellformedness invariant of every parser-produced value: strings and
number tokens are round-trippable and object keys are strictly sorted. -/
def wfVal : JVal → Bool
  | .str s => wfStr s
  | .num t => wfNum t
  | .bool _ => true
  | .null => true
  | .arr l => wfArr l
  | .obj m => wfObj m

/-- All elements wellformed. -/
def wfArr : List JVal → Bool
  | [] => true
  | v :: rest => wfVal v && wfArr rest

/-- Keys wellformed and strictly sorted, values wellformed. -/
def wfObj : List (List Char × JVal) → Bool
  | [] => true
  | (k, v) :: rest => wfStr k && wfVal v && ltHead k rest && wfObj rest

end

mutual

/-- Fuel needed by parseValue to reparse a serialized value. -/
def jsize : JVal → Nat
  | .arr l => 1 + jsizeArr l
  | .obj m => 1 + jsizeObj m
  | _ => 1

/-- Fuel needed by parseArrEntries for the given remaining elements. -/
def jsizeArr : List JVal → Nat
  | [] => 0
  | v :: rest => 1 + jsize v + jsizeArr rest

/-- Fuel needed by parseObjEntries for the given remaining entries. -/
def jsizeObj : List (List Char × JVal) → Nat
  | [] => 0
  | (_, v) :: rest => 1 + jsize v + jsizeObj rest

end

/-- formatStackTraceBytes from goslogx.go, inner loop: a newline+tab pair
becomes " | " (the tab skipped), a remaining bare newline becomes " | ",
every other byte is copied. -/
def formatCore : List Char → List Char
  | [] => []
  | '\n' :: '\t' :: rest => " | ".data ++ formatCore rest
  | '\n' :: rest => " | ".data ++ formatCore rest
  | c :: rest => c :: formatCore rest

/-- formatStackTraceBytes from goslogx.go: the bytes appended to the
destination buffer — the transformed text wrapped in brackets. -/
def formatStackTraceBytes (stackStr : List Char) : List Char :=
  '[' :: (formatCore stackStr ++ [']'])

/-- decodeJSONString from goslogx.go, escape-processing loop: a backslash
followed by one of the four known escape characters is decoded, any other
backslash is kept and the next character processed on its own. -/
def decodeCore : List Char → List Char
  | [] => []
  | '\\' :: next :: rest =>
    if next = '"' then '"' :: decodeCore rest
    else if next = '\\' then '\\' :: decodeCore rest
    else if next = 'n' then '\n' :: decodeCore rest
    else if next = 't' then '\t' :: decodeCore rest
    else '\\' :: decodeCore (next :: rest)
  | c :: rest => c :: decodeCore rest

/-- decodeJSONString from goslogx.go: fast path for inputs without a
backslash, otherwise the escape-processing loop. -/
def decodeJSONString (b : List Char) : List Char :=
  if containsL b ['\\'] then decodeCore b else b

/-- The literal marker scanned for by stackTraceFormattingWriter.Write. -/
def stackTraceKey : List Char := ('"' :: "stack_trace".data) ++ ['"', ':', '"']

/-- The closing-quote scan of stackTraceFormattingWriter.Write, its loop
counted by explicit fuel: while i < len(p)-1, a backslash advances by two,
a quote stops the scan, anything else advances by one; the final position
is returned.  (With fuel at least len(p)-i the fuel never runs out before
the loop condition fails, so scanEnd below computes exactly the Go loop.) -/
def scanEndAux (p : List Char) : Nat → Nat → Nat
  | 0, i => i
  | fuel + 1, i =>
    if i < p.length - 1 then
      if p.getD i ' ' = '\\' then scanEndAux p fuel (i + 2)
      else if p.getD i ' ' = '"' then i
      else scanEndAux p fuel (i + 1)
    else i

/-- The closing-quote scan of stackTraceFormattingWriter.Write. -/
def scanEnd (p : List Char) (i : Nat) : Nat :=
  scanEndAux p (p.length - i) i

/-- stackTraceFormattingWriter.Write from goslogx.go, modelled over a sink
that accepts every buffer and reports its length (bytes.Buffer, as in the
repository's tests).  Returns the buffer handed to the underlying sink and
the byte count Write returns to its caller. -/
def writeModel (p : List Char) : List Char × Nat :=
  if containsL p stackTraceKey = false then (p, p.length)
  else
    let idx := (indexOfL p stackTraceKey).getD 0
    let startIdx := idx + stackTraceKey.length
    let endIdx := scanEnd p startIdx
    if p.length ≤ endIdx then (p, p.length)
    else
      let stackBytes := (p.drop startIdx).take (endIdx - startIdx)
      let stackStr := decodeJSONString stackBytes
      let out := p.take startIdx ++ formatStackTraceBytes stackStr ++ p.drop endIdx
      (out, out.length)

/-- One field of a Go struct type, as reflect presents it to getStructMeta:
the Go field name, the contents of its json and log tags, and whether the
field is exported. -/
structure GoField where
  name : List Char
  jsonTag : List Char
  logTag : List Char
  exported : Bool
deriving DecidableEq, Repr

/-- fieldMeta from dto.go, the parts getStructMeta computes that the claims
concern: display name, index in the struct, masking strategy. -/
structure FieldMeta where
  name : List Char
  index : Nat
  mask : maskType
deriving DecidableEq, Repr

/-- The display-name computation of getStructMeta: a nonempty json tag other
than the "-" sentinel replaces the Go field name, truncated at a comma when
the comma is not the first character. -/
def displayName (f : GoField) : List Char :=
  if f.jsonTag ≠ [] ∧ f.jsonTag ≠ "-".data then
    match indexOfL f.jsonTag [','] with
    | some i => if 0 < i then f.jsonTag.take i else f.jsonTag
    | none => f.jsonTag
  else f.name

/-- The log-tag parsing of getStructMeta. -/
def parseLogTag (tag : List Char) : maskType :=
  if tag = "masked:full".data then maskFull
  else if tag = "masked:partial".data then maskPartial
  else maskNone

/-- The field loop of getStructMeta from dto.go: iterate all fields with
their indices, skip unexported ones, record display name, index and masking
strategy for the rest. -/
def getStructMetaFields : Nat → List GoField → List FieldMeta
  | _, [] => []
  | i, f :: rest =>
    if f.exported then
      ⟨displayName f, i, parseLogTag f.logTag⟩ :: getStructMetaFields (i + 1) rest
    else getStructMetaFields (i + 1) rest

/-- getStructMeta from dto.go (the metadata construction; the sync.Map cache
returns the same construction on every lookup). -/
def getStructMeta (fields : List GoField) : List FieldMeta :=
  getStructMetaFields 0 fields

/-- Spec-side reference: the first pattern of a list contained in the
normalised name, mirroring the claim's "first match wins and
short-circuits" description of the classification loops. -/
def firstMatch (lower : List Char) : List (List Char) → Option (List Char)
  | [] => none
  | p :: rest => if containsL lower p then some p else firstMatch lower rest

/-- Spec-side reference classifier, written exactly as claim C4 describes
the algorithm: normalise, try the full-mask patterns in order returning
full on the first match, only then try the partial-mask patterns in order,
otherwise none. -/
def classifySpec (name : List Char) : maskType :=
  let lower := normalizeName name
  match firstMatch lower fullMaskFields with
  | some _ => maskFull
  | none =>
    match firstMatch lower partialMaskFields with
    | some _ => maskPartial
    | none => maskNone

/-- Spec-side reference for claim C8: replace every newline+tab pair with
" | ", leftmost first. -/
def replaceNT : List Char → List Char
  | [] => []
  | '\n' :: '\t' :: rest => " | ".data ++ replaceNT rest
  | c :: rest => c :: replaceNT rest

/-- Spec-side reference for claim C8: replace every remaining bare newline
with " | ". -/
def replaceN : List Char → List Char
  | [] => []
  | '\n' :: rest => " | ".data ++ replaceN rest
  | c :: rest => c :: replaceN rest

/-- A serialized value may be followed by this rest only if the rest cannot
extend a number token (always the case at the commas, closing brackets and
end-of-input where values end). -/
def delimOK : List Char → Bool
  | [] => true
  | c :: _ => !isNumChar c

/-! ## Theorems -/

/-- C3: for strings longer than 4 the partial obscurer keeps the first two
and last two characters around the constant interior token; for strings of
length at most 4 it returns the constant fully-masked token "****", the
same constant the full strategy stores. -/
theorem claim_C3 :
    (∀ s : List Char, 4 < s.length →
      maskMiddle s = s.take 2 ++ "****".data ++ s.drop (s.length - 2)) ∧
    (∀ s : List Char, s.length ≤ 4 → maskMiddle s = "****".data) := by
  constructor
  · intro s h
    unfold maskMiddle
    rw [if_neg (by omega)]
  · intro s h
    unfold maskMiddle
    rw [if_pos h]

/-- Witness for claim_C3 at the concrete strings "abcdef" and "abc". -/
theorem claim_C3_witness :
    (4 < ("abcdef".data).length ∧
      maskMiddle "abcdef".data =
        ("abcdef".data).take 2 ++ "****".data ++
          ("abcdef".data).drop (("abcdef".data).length - 2)) ∧
    (("abc".data).length ≤ 4 ∧ maskMiddle "abc".data = "****".data) :=
  ⟨⟨by decide, claim_C3.1 "abcdef".data (by decide)⟩,
   ⟨by decide, claim_C3.2 "abc".data (by decide)⟩⟩

theorem firstMatch_isSome (lower : List Char) (l : List (List Char)) :
    (firstMatch lower l).isSome = l.any fun p => containsL lower p := by
  induction l with
  | nil => rfl
  | cons p rest ih =>
    cases h : containsL lower p <;> simp [firstMatch, h, ih]

theorem shouldMaskField_eq_classifySpec (name : List Char) :
    shouldMaskField name = classifySpec name := by
  cases hf : firstMatch (normalizeName name) fullMaskFields with
  | some p =>
    have h1 : (fullMaskFields.any fun p => containsL (normalizeName name) p) = true := by
      rw [← firstMatch_isSome, hf]; rfl
    simp [shouldMaskField, classifySpec, hf, h1]
  | none =>
    have h1 : (fullMaskFields.any fun p => containsL (normalizeName name) p) = false := by
      rw [← firstMatch_isSome, hf]; rfl
    cases hp : firstMatch (normalizeName name) partialMaskFields with
    | some q =>
      have h2 : (partialMaskFields.any fun p => containsL (normalizeName name) p) = true := by
        rw [← firstMatch_isSome, hp]; rfl
      simp [shouldMaskField, classifySpec, hf, hp, h1, h2]
    | none =>
      have h2 : (partialMaskFields.any fun p => containsL (normalizeName name) p) = false := by
        rw [← firstMatch_isSome, hp]; rfl
      simp [shouldMaskField, classifySpec, hf, hp, h1, h2]

/-- C4: the classifier normalises the name (lowercase, dash to underscore)
and tests substring containment against the full patterns first, then the
partial patterns, as the spec-side classifySpec states literally; any
contained full pattern forces maskFull regardless of partial matches;
"user_id" is classified partial; containment is substring-based, not
equality. -/
theorem claim_C4 :
    (∀ name, shouldMaskField name = classifySpec name) ∧
    (∀ name p, p ∈ fullMaskFields → containsL (normalizeName name) p = true →
      shouldMaskField name = maskFull) ∧
    shouldMaskField "user_id".data = maskPartial ∧
    shouldMaskField "user_id_token".data = maskFull ∧
    shouldMaskField "my_password_field".data = maskFull := by
  refine ⟨shouldMaskField_eq_classifySpec, ?_, by decide, by decide, by decide⟩
  intro name p hp hc
  unfold shouldMaskField
  rw [if_pos]
  exact List.any_eq_true.mpr ⟨p, hp, hc⟩

/-- Witness for claim_C4: the header name "X-Auth-User" contains the full
pattern "auth" after normalisation, so it classifies full. -/
theorem claim_C4_witness :
    ("auth".data ∈ fullMaskFields ∧
      containsL (normalizeName "X-Auth-User".data) "auth".data = true) ∧
    shouldMaskField "X-Auth-User".data = maskFull :=
  ⟨⟨by decide, by decide⟩,
   claim_C4.2.1 "X-Auth-User".data "auth".data (by decide) (by decide)⟩

theorem mem_maskHttpHeaders (h : List (List Char × List (List Char)))
    (k : List Char) (vs : List (List Char)) (hmem : (k, vs) ∈ h) :
    (if shouldMaskField k ≠ maskNone ∧ vs.length > 0 then
        (k, vs.map fun v =>
          if shouldMaskField k = maskFull then "****".data else maskMiddle v)
      else (k, vs)) ∈ maskHttpHeaders h := by
  induction h with
  | nil => simp at hmem
  | cons e rest ih =>
    unfold maskHttpHeaders
    rw [List.map_cons]
    rcases List.mem_cons.mp hmem with heq | hmem₂
    · subst heq
      exact List.mem_cons.mpr (Or.inl (by rfl))
    · exact List.mem_cons_of_mem _ (ih hmem₂)

/-- C6: every header entry is mapped according to its name's
classification — full replaces each value by the constant token, partial
obscures each value independently, none copies the values — and the
concrete Authorization / Content-Type example behaves as stated.  (The Go
function builds a fresh map, which the functional model reflects.) -/
theorem claim_C6 :
    (∀ h k vs, (k, vs) ∈ h →
      (shouldMaskField k = maskFull →
        (k, vs.map fun _ => "****".data) ∈ maskHttpHeaders h) ∧
      (shouldMaskField k = maskPartial →
        (k, vs.map maskMiddle) ∈ maskHttpHeaders h) ∧
      (shouldMaskField k = maskNone → (k, vs) ∈ maskHttpHeaders h)) ∧
    maskHttpHeaders [("Authorization".data, ["Bearer xyz".data]),
                     ("Content-Type".data, ["application/json".data])] =
      [("Authorization".data, ["****".data]),
       ("Content-Type".data, ["application/json".data])] := by
  constructor
  · intro h k vs hmem
    have base := mem_maskHttpHeaders h k vs hmem
    refine ⟨fun hmt => ?_, fun hmt => ?_, fun hmt => ?_⟩
    · cases vs with
      | nil => simpa [hmt] using base
      | cons a t => simpa [hmt] using base
    · cases vs with
      | nil => simpa [hmt] using base
      | cons a t => simpa [hmt] using base
    · simpa [hmt] using base
  · decide

/-- Witness for claim_C6 at a concrete one-entry header map. -/
theorem claim_C6_witness :
    ("Token".data, ["abc".data]) ∈ [("Token".data, ["abc".data])] ∧
    shouldMaskField "Token".data = maskFull ∧
    ("Token".data, (["abc".data]).map fun _ => "****".data) ∈
      maskHttpHeaders [("Token".data, ["abc".data])] :=
  ⟨by simp, by decide,
   (claim_C6.1 [("Token".data, ["abc".data])] "Token".data ["abc".data]
     (by simp)).1 (by decide)⟩

theorem replaceN_append_no_nl (a x : List Char) (h : ∀ c ∈ a, c ≠ '\n') :
    replaceN (a ++ x) = a ++ replaceN x := by
  induction a with
  | nil => rfl
  | cons c t ih =>
    have hc : c ≠ '\n' := h c (by simp)
    have ht : ∀ d ∈ t, d ≠ '\n' := fun d hd => h d (by simp [hd])
    rw [List.cons_append]
    simp [replaceN, hc, ih ht]

theorem formatCore_eq_aux :
    ∀ n s, List.length s ≤ n → formatCore s = replaceN (replaceNT s) := by
  intro n
  induction n with
  | zero =>
    intro s hs
    have : s = [] := List.eq_nil_of_length_eq_zero (Nat.le_zero.mp hs)
    subst this
    rfl
  | succ n ih =>
    intro s hs
    rcases s with _ | ⟨c, s'⟩
    · rfl
    rcases s' with _ | ⟨d, rest⟩
    · by_cases hc : c = '\n'
      · subst hc; rfl
      · simp [formatCore, replaceNT, replaceN, hc]
    · by_cases hc : c = '\n'
      · subst hc
        by_cases hd : d = '\t'
        · subst hd
          have hrest : rest.length ≤ n := by simp at hs; omega
          show " | ".data ++ formatCore rest = replaceN (" | ".data ++ replaceNT rest)
          rw [replaceN_append_no_nl _ _ (by decide), ih rest hrest]
        · have hrest : (d :: rest).length ≤ n := by simp at hs ⊢; omega
          have h1 : formatCore ('\n' :: d :: rest) = " | ".data ++ formatCore (d :: rest) := by
            simp [formatCore, hd]
          have h2 : replaceNT ('\n' :: d :: rest) = '\n' :: replaceNT (d :: rest) := by
            simp [replaceNT, hd]
          rw [h1, h2, ih (d :: rest) hrest]
          simp [replaceN]
      · have hrest : (d :: rest).length ≤ n := by simp at hs ⊢; omega
        have h1 : formatCore (c :: d :: rest) = c :: formatCore (d :: rest) := by
          simp [formatCore, hc]
        have h2 : replaceNT (c :: d :: rest) = c :: replaceNT (d :: rest) := by
          simp [replaceNT, hc]
        rw [h1, h2, ih (d :: rest) hrest]
        simp [replaceN, hc]

theorem formatCore_eq (s : List Char) : formatCore s = replaceN (replaceNT s) :=
  formatCore_eq_aux s.length s le_rfl

/-- C8: the stack-trace reformatter wraps the text in brackets, replaces
every newline+tab pair with " | " and every remaining bare newline with
" | " (stated through the literal two-pass replacement functions), and the
concrete example "a\nb\n\tc" reformats to "[a | b | c]". -/
theorem claim_C8 :
    (∀ s, formatStackTraceBytes s = '[' :: (replaceN (replaceNT s) ++ [']'])) ∧
    formatStackTraceBytes "a\nb\n\tc".data = "[a | b | c]".data := by
  constructor
  · intro s
    unfold formatStackTraceBytes
    rw [formatCore_eq]
  · decide

theorem getStructMetaFields_mem :
    ∀ (fs : List GoField) (i : Nat) (f : GoField), f ∈ fs → f.exported = true →
      ∃ d ∈ getStructMetaFields i fs, d.name = displayName f := by
  intro fs
  induction fs with
  | nil => intro i f h; simp at h
  | cons g rest ih =>
    intro i f hmem hexp
    rcases List.mem_cons.mp hmem with rfl | hmem₂
    · refine ⟨⟨displayName f, i, parseLogTag f.logTag⟩, ?_, rfl⟩
      unfold getStructMetaFields
      simp [hexp]
    · obtain ⟨d, hd, hdn⟩ := ih (i + 1) f hmem₂ hexp
      refine ⟨d, ?_, hdn⟩
      unfold getStructMetaFields
      cases hg : g.exported <;> simp [hg, hd]

/-- C9: a json tag of "-" does not suppress a struct field from the
metadata — the field still yields a descriptor, its display name falling
back to the Go field name — and the concrete three-field example yields
exactly three descriptors. -/
theorem claim_C9 :
    (∀ (fs : List GoField) (f : GoField), f ∈ fs → f.exported = true →
      ∃ d ∈ getStructMeta fs, d.name = displayName f) ∧
    (∀ f : GoField, f.jsonTag = "-".data → displayName f = f.name) ∧
    getStructMeta [⟨"Field1".data, "field_1".data, [], true⟩,
                   ⟨"Field2".data, "field_2,omitempty".data, [], true⟩,
                   ⟨"Field3".data, "-".data, [], true⟩] =
      [⟨"field_1".data, 0, maskNone⟩, ⟨"field_2".data, 1, maskNone⟩,
       ⟨"Field3".data, 2, maskNone⟩] := by
  refine ⟨fun fs f => getStructMetaFields_mem fs 0 f, ?_, by decide⟩
  intro f h
  unfold displayName
  rw [if_neg]
  simp [h]

/-- Witness for claim_C9 at a concrete one-field struct whose json tag is
the "-" sentinel. -/
theorem claim_C9_witness :
    ((⟨"Secret".data, "-".data, [], true⟩ : GoField) ∈
        [(⟨"Secret".data, "-".data, [], true⟩ : GoField)] ∧
      (⟨"Secret".data, "-".data, [], true⟩ : GoField).exported = true) ∧
    (∃ d ∈ getStructMeta [(⟨"Secret".data, "-".data, [], true⟩ : GoField)],
      d.name = displayName ⟨"Secret".data, "-".data, [], true⟩) ∧
    displayName ⟨"Secret".data, "-".data, [], true⟩ = "Secret".data :=
  ⟨⟨by simp, rfl⟩,
   claim_C9.1 _ _ (by simp) rfl,
   claim_C9.2.1 ⟨"Secret".data, "-".data, [], true⟩ rfl⟩

/-- C7 fails on the code: in this buffer the stack_trace marker is present
and no closing quote at all follows the value start (position 16), yet
Write does not forward the buffer unchanged — the scan stops at the last
index, the guard endIdx >= len(p) does not fire, and the buffer is
rewritten to a corrupted form, against the function's own stated intent. -/
theorem claim_C7_cx :
    containsL "\x7b\"stack_trace\":\"abc".data stackTraceKey = true ∧
    ((("\x7b\"stack_trace\":\"abc".data).drop 16).all fun c => c ≠ '"') = true ∧
    (writeModel "\x7b\"stack_trace\":\"abc".data).1 = "\x7b\"stack_trace\":\"[ab]c".data ∧
    (writeModel "\x7b\"stack_trace\":\"abc".data).1 ≠ "\x7b\"stack_trace\":\"abc".data := by
  refine ⟨by decide, by decide, by decide, by decide⟩

/-- C10: on the rewrite path (marker present, scan stopped inside the
buffer on a closing quote) Write hands the reassembled buffer to the
underlying sink and returns that sink's count for the rewritten buffer —
the rewritten buffer's length — not the caller-supplied length. -/
theorem claim_C10 (p : List Char) (startIdx endIdx : Nat)
    (hm : containsL p stackTraceKey = true)
    (hs : startIdx = (indexOfL p stackTraceKey).getD 0 + stackTraceKey.length)
    (he : endIdx = scanEnd p startIdx)
    (hlt : endIdx < p.length)
    (hq : p.getD endIdx ' ' = '"') :
    writeModel p =
      (p.take startIdx ++
         formatStackTraceBytes
           (decodeJSONString ((p.drop startIdx).take (endIdx - startIdx))) ++
         p.drop endIdx,
       (p.take startIdx ++
         formatStackTraceBytes
           (decodeJSONString ((p.drop startIdx).take (endIdx - startIdx))) ++
         p.drop endIdx).length) ∧
    (writeModel p).2 = (writeModel p).1.length := by
  subst he
  subst hs
  have hmain : writeModel p =
      (p.take ((indexOfL p stackTraceKey).getD 0 + stackTraceKey.length) ++
         formatStackTraceBytes
           (decodeJSONString
             ((p.drop ((indexOfL p stackTraceKey).getD 0 + stackTraceKey.length)).take
               (scanEnd p ((indexOfL p stackTraceKey).getD 0 + stackTraceKey.length) -
                 ((indexOfL p stackTraceKey).getD 0 + stackTraceKey.length)))) ++
         p.drop (scanEnd p ((indexOfL p stackTraceKey).getD 0 + stackTraceKey.length)),
       (p.take ((indexOfL p stackTraceKey).getD 0 + stackTraceKey.length) ++
         formatStackTraceBytes
           (decodeJSONString
             ((p.drop ((indexOfL p stackTraceKey).getD 0 + stackTraceKey.length)).take
               (scanEnd p ((indexOfL p stackTraceKey).getD 0 + stackTraceKey.length) -
                 ((indexOfL p stackTraceKey).getD 0 + stackTraceKey.length)))) ++
         p.drop (scanEnd p ((indexOfL p stackTraceKey).getD 0 + stackTraceKey.length))).length) := by
    unfold writeModel
    rw [hm]
    rw [if_neg (by simp)]
    dsimp only
    rw [if_neg (by omega)]
  exact ⟨hmain, by rw [hmain]⟩

/-- Witness for claim_C10 at a concrete line: input length 19, returned
count 21 (the rewritten buffer's length). -/
theorem claim_C10_witness :
    (containsL "\x7b\"stack_trace\":\"x\"\x7d".data stackTraceKey = true ∧
      scanEnd "\x7b\"stack_trace\":\"x\"\x7d".data 16 <
        ("\x7b\"stack_trace\":\"x\"\x7d".data).length ∧
      ("\x7b\"stack_trace\":\"x\"\x7d".data).getD
        (scanEnd "\x7b\"stack_trace\":\"x\"\x7d".data 16) ' ' = '"') ∧
    (writeModel "\x7b\"stack_trace\":\"x\"\x7d".data).2 =
      ((writeModel "\x7b\"stack_trace\":\"x\"\x7d".data).1).length ∧
    (writeModel "\x7b\"stack_trace\":\"x\"\x7d".data).2 ≠
      ("\x7b\"stack_trace\":\"x\"\x7d".data).length :=
  ⟨⟨by decide, by decide, by decide⟩,
   (claim_C10 "\x7b\"stack_trace\":\"x\"\x7d".data 16
     (scanEnd "\x7b\"stack_trace\":\"x\"\x7d".data 16)
     (by decide) (by decide) rfl (by decide) (by decide)).2,
   by decide⟩

/-- C5: masking the empty string yields the empty string; any input the
JSON decoder rejects is returned unchanged (the error is swallowed); in
particular maskJSONString "{invalid" = "{invalid". -/
theorem claim_C5 :
    maskJSONString [] = [] ∧
    (∀ s, parseJSON s = none → maskJSONString s = s) ∧
    maskJSONString "\x7binvalid".data = "\x7binvalid".data := by
  refine ⟨rfl, ?_, by decide⟩
  intro s h
  by_cases hs : s = []
  · simp [maskJSONString, hs]
  · unfold maskJSONString
    rw [if_neg hs, h]

/-- Witness for claim_C5 at the concrete non-JSON input "not json". -/
theorem claim_C5_witness :
    parseJSON "not json".data = none ∧
    maskJSONString "not json".data = "not json".data :=
  ⟨rfl, claim_C5.2.1 "not json".data rfl⟩

theorem mem_maskJSONMap_full :
    ∀ (m : List (List Char × JVal)) (k sec : List Char),
      (k, JVal.str sec) ∈ m → shouldMaskField k = maskFull →
      (k, JVal.str "****".data) ∈ maskJSONMap m := by
  intro m k sec
  induction m with
  | nil => intro h _; simp at h
  | cons e rest ih =>
    intro hmem hfull
    rcases List.mem_cons.mp hmem with heq | hmem₂
    · subst heq
      have hme : maskJSONEntry k (JVal.str sec) = JVal.str "****".data := by
        unfold maskJSONEntry
        rw [hfull]
      rw [show maskJSONMap ((k, JVal.str sec) :: rest) =
        (k, maskJSONEntry k (JVal.str sec)) :: maskJSONMap rest from rfl, hme]
      exact List.mem_cons_self _ _
    · exact List.mem_cons_of_mem _ (ih hmem₂ hfull)

/-- C1: whenever a decoded JSON object has an entry whose key classifies
full and whose value is a string, the masked object binds that key to the
constant "****", and maskJSONString re-serialises exactly the masked
object; on the concrete example the output contains "password":"****" and
"username":"jo****23" and no longer contains the secret value. -/
theorem claim_C1 :
    (∀ s m k sec, parseJSON s = some (JVal.obj m) → (k, JVal.str sec) ∈ m →
      shouldMaskField k = maskFull →
      (k, JVal.str "****".data) ∈ maskJSONMap m ∧
      maskJSONString s = serialize (JVal.obj (maskJSONMap m))) ∧
    containsL
      (maskJSONString "\x7b\"username\":\"johndoe123\",\"password\":\"secret123\"\x7d".data)
      "\"password\":\"****\"".data = true ∧
    containsL
      (maskJSONString "\x7b\"username\":\"johndoe123\",\"password\":\"secret123\"\x7d".data)
      "\"username\":\"jo****23\"".data = true ∧
    containsL
      (maskJSONString "\x7b\"username\":\"johndoe123\",\"password\":\"secret123\"\x7d".data)
      "secret123".data = false := by
  refine ⟨?_, by decide, by decide, by decide⟩
  intro s m k sec hparse hmem hfull
  have hs : s ≠ [] := by
    intro h
    subst h
    rw [show parseJSON ([] : List Char) = none from rfl] at hparse
    cases hparse
  refine ⟨mem_maskJSONMap_full m k sec hmem hfull, ?_⟩
  unfold maskJSONString
  rw [if_neg hs, hparse]
  rfl

/-- Witness for claim_C1 at the concrete username/password example. -/
theorem claim_C1_witness :
    parseJSON "\x7b\"username\":\"johndoe123\",\"password\":\"secret123\"\x7d".data =
      some (JVal.obj [("password".data, JVal.str "secret123".data),
                      ("username".data, JVal.str "johndoe123".data)]) ∧
    ("password".data, JVal.str "secret123".data) ∈
      [("password".data, JVal.str "secret123".data),
       ("username".data, JVal.str "johndoe123".data)] ∧
    shouldMaskField "password".data = maskFull ∧
    (("password".data, JVal.str "****".data) ∈
        maskJSONMap [("password".data, JVal.str "secret123".data),
                     ("username".data, JVal.str "johndoe123".data)] ∧
      maskJSONString "\x7b\"username\":\"johndoe123\",\"password\":\"secret123\"\x7d".data =
        serialize (JVal.obj (maskJSONMap
          [("password".data, JVal.str "secret123".data),
           ("username".data, JVal.str "johndoe123".data)]))) :=
  ⟨rfl, List.mem_cons_self _ _, by decide,
   claim_C1.1 "\x7b\"username\":\"johndoe123\",\"password\":\"secret123\"\x7d".data
     [("password".data, JVal.str "secret123".data),
      ("username".data, JVal.str "johndoe123".data)]
     "password".data "secret123".data rfl (List.mem_cons_self _ _) (by decide)⟩

theorem charEqOfToNat {a b : Char} (h : a.toNat = b.toNat) : a = b :=
  Char.eq_of_val_eq (UInt32.ext h)

theorem lexLt_irrefl : ∀ a, lexLt a a = false := by
  intro a
  induction a with
  | nil => rfl
  | cons c t ih => simp [lexLt, ih]

theorem lexLt_asymm : ∀ a b, lexLt a b = true → lexLt b a = false := by
  intro a
  induction a with
  | nil =>
    intro b h
    cases b with
    | nil => simp [lexLt] at h
    | cons y ys => rfl
  | cons x xs ih =>
    intro b h
    cases b with
    | nil => simp [lexLt] at h
    | cons y ys =>
      simp only [lexLt] at h ⊢
      by_cases h1 : x.toNat < y.toNat
      · rw [if_neg (Nat.lt_asymm h1), if_pos h1]
      · by_cases h2 : y.toNat < x.toNat
        · rw [if_neg h1, if_pos h2] at h
          exact absurd h (by simp)
        · rw [if_neg h1, if_neg h2] at h
          rw [if_neg h2, if_neg h1]
          exact ih ys h

theorem lexLt_connex : ∀ a b, a ≠ b → lexLt a b = true ∨ lexLt b a = true := by
  intro a
  induction a with
  | nil =>
    intro b hne
    cases b with
    | nil => exact absurd rfl hne
    | cons y ys => left; rfl
  | cons x xs ih =>
    intro b hne
    cases b with
    | nil => right; rfl
    | cons y ys =>
      rcases Nat.lt_trichotomy x.toNat y.toNat with h | h | h
      · left; simp [lexLt, h]
      · have hxy : x = y := charEqOfToNat h
        subst hxy
        have hne2 : xs ≠ ys := fun hh => hne (by rw [hh])
        rcases ih ys hne2 with h2 | h2
        · left; simp [lexLt, h2]
        · right; simp [lexLt, h2]
      · right; simp [lexLt, h]

theorem lexLt_trans : ∀ a b c,
    lexLt a b = true → lexLt b c = true → lexLt a c = true := by
  intro a
  induction a with
  | nil =>
    intro b c hab hbc
    cases b with
    | nil => simp [lexLt] at hab
    | cons y ys =>
      cases c with
      | nil => simp [lexLt] at hbc
      | cons z zs => rfl
  | cons x xs ih =>
    intro b c hab hbc
    cases b with
    | nil => simp [lexLt] at hab
    | cons y ys =>
      cases c with
      | nil => simp [lexLt] at hbc
      | cons z zs =>
        simp only [lexLt] at hab hbc ⊢
        by_cases h1 : x.toNat < y.toNat
        · by_cases h2 : y.toNat < z.toNat
          · simp [Nat.lt_trans h1 h2]
          · rw [if_neg h2] at hbc
            by_cases h3 : z.toNat < y.toNat
            · rw [if_pos h3] at hbc
              exact absurd hbc (by simp)
            · have hz : x.toNat < z.toNat := by omega
              simp [hz]
        · rw [if_neg h1] at hab
          by_cases h4 : y.toNat < x.toNat
          · rw [if_pos h4] at hab
            exact absurd hab (by simp)
          · rw [if_neg h4] at hab
            by_cases h2 : y.toNat < z.toNat
            · have hz : x.toNat < z.toNat := by omega
              simp [hz]
            · rw [if_neg h2] at hbc
              by_cases h5 : z.toNat < y.toNat
              · rw [if_pos h5] at hbc
                exact absurd hbc (by simp)
              · rw [if_neg h5] at hbc
                have hxz : ¬ x.toNat < z.toNat := by omega
                have hzx : ¬ z.toNat < x.toNat := by omega
                rw [if_neg hxz, if_neg hzx]
                exact ih ys zs hab hbc

theorem ltHead_objInsert (k₂ k : List Char) (v : JVal)
    (m : List (List Char × JVal)) (hlt : lexLt k₂ k = true)
    (hh : ltHead k₂ m = true) : ltHead k₂ (objInsert k v m) = true := by
  cases m with
  | nil => simpa [objInsert, ltHead] using hlt
  | cons e rest =>
    rcases e with ⟨k₃, v₃⟩
    unfold objInsert
    by_cases h1 : k = k₃
    · subst h1
      simpa [ltHead] using hlt
    · rw [if_neg h1]
      by_cases h2 : lexLt k k₃ = true
      · simp [h2, ltHead, hlt]
      · simpa [h2, ltHead] using hh

theorem wfObj_objInsert : ∀ (m : List (List Char × JVal)) k v,
    wfObj m = true → wfStr k = true → wfVal v = true →
    wfObj (objInsert k v m) = true := by
  intro m
  induction m with
  | nil =>
    intro k v _ hk hv
    simp [objInsert, wfObj, hk, hv, ltHead]
  | cons e rest ih =>
    rcases e with ⟨k₃, v₃⟩
    intro k v hm hk hv
    obtain ⟨⟨⟨hk₃, hv₃⟩, hlt₃⟩, hrest⟩ :
        ((wfStr k₃ = true ∧ wfVal v₃ = true) ∧ ltHead k₃ rest = true) ∧
          wfObj rest = true := by
      simpa [wfObj, Bool.and_eq_true] using hm
    unfold objInsert
    by_cases h1 : k = k₃
    · subst h1
      simp [wfObj, hk, hv, hlt₃, hrest]
    · rw [if_neg h1]
      by_cases h2 : lexLt k k₃ = true
      · have hK : ltHead k ((k₃, v₃) :: rest) = true := by simp [ltHead, h2]
        simp [h2, wfObj, hk, hv, hk₃, hv₃, hK, hlt₃, hrest]
      · have h3 : lexLt k₃ k = true := by
          rcases lexLt_connex k k₃ h1 with h | h
          · exact absurd h h2
          · exact h
        simp [h2, wfObj, hk₃, hv₃, ltHead_objInsert k₃ k v rest h3 hlt₃,
          ih k v hrest hk hv]

theorem objInsert_append : ∀ (m : List (List Char × JVal)) k v,
    (∀ kv ∈ m, lexLt kv.1 k = true) → objInsert k v m = m ++ [(k, v)] := by
  intro m
  induction m with
  | nil => intro k v _; rfl
  | cons e rest ih =>
    rcases e with ⟨k₃, v₃⟩
    intro k v hall
    have h₃ : lexLt k₃ k = true := hall (k₃, v₃) (by simp)
    have hne : ¬ k = k₃ := by
      intro h
      subst h
      rw [lexLt_irrefl] at h₃
      exact absurd h₃ (by simp)
    have hnlt : ¬ lexLt k k₃ = true := by
      intro h
      exact absurd h₃ (by simp [lexLt_asymm k k₃ h])
    unfold objInsert
    rw [if_neg hne, if_neg hnlt, ih k v (fun kv hkv => hall kv (by simp [hkv]))]
    rfl

theorem skipWs_cons (c : Char) (t : List Char) (h : isWs c = false) :
    skipWs (c :: t) = c :: t := by
  simp [skipWs, h]

theorem decodeEscape_wfChar : ∀ c c₂, decodeEscape c = some c₂ →
    (c₂ = '"' ∨ c₂ = '\\' ∨ c₂ = '\n' ∨ c₂ = '\t' ∨ c₂ = '\r' ∨
      32 ≤ c₂.toNat) := by
  intro c c₂ h
  unfold decodeEscape at h
  split_ifs at h <;>
    first
    | (injection h with h1; subst h1; decide)
    | cases h

theorem parseStringBody_wf : ∀ s, ∀ content rest,
    parseStringBody s = some (content, rest) → wfStr content = true := by
  intro s
  induction s using parseStringBody.induct with
  | case1 => intro content rest h; simp [parseStringBody] at h
  | case2 r =>
    intro content rest h
    have hc : ([] : List Char) = content := by
      simpa [parseStringBody] using congrArg (fun o => Option.map Prod.fst o) h
    rw [← hc]
    rfl
  | case3 => intro content rest h; simp [parseStringBody] at h
  | case4 c r hdec => intro content rest h; simp [parseStringBody, hdec] at h
  | case5 c r c₂ hdec ih =>
    intro content rest h
    rw [show parseStringBody ('\\' :: c :: r) =
      (parseStringBody r).map (fun p => (c₂ :: p.1, p.2)) by
        simp [parseStringBody, hdec]] at h
    rcases hpr : parseStringBody r with _ | ⟨c₃, r₃⟩
    · rw [hpr] at h; simp at h
    · rw [hpr] at h
      simp at h
      obtain ⟨h1, _⟩ := h
      rw [← h1]
      have hwf := ih c₃ r₃ hpr
      have hch := decodeEscape_wfChar c c₂ hdec
      simp [wfStr, List.all_cons] at hwf ⊢
      rcases hch with h | h | h | h | h | h <;> simp [h] <;> exact hwf
  | case6 c r h1 h2 h3 => intro content rest h; simp [parseStringBody, h1, h2, h3] at h
  | case7 c r h1 h2 h3 ih =>
    intro content rest h
    rw [show parseStringBody (c :: r) =
      (parseStringBody r).map (fun p => (c :: p.1, p.2)) by
        simp [parseStringBody, h1, h2, h3]] at h
    rcases hpr : parseStringBody r with _ | ⟨c₃, r₃⟩
    · rw [hpr] at h; simp at h
    · rw [hpr] at h
      simp at h
      obtain ⟨hh1, _⟩ := h
      rw [← hh1]
      have hwf := ih c₃ r₃ hpr
      have h32 : 32 ≤ c.toNat := Nat.le_of_not_lt h3
      simp [wfStr, List.all_cons] at hwf ⊢
      simp [h32] <;> exact hwf

theorem parseStringBody_escape : ∀ s rest, wfStr s = true →
    parseStringBody (escapeStr s ++ '"' :: rest) = some (s, rest) := by
  intro s
  induction s with
  | nil => intro rest _; rfl
  | cons c cs ih =>
    intro rest h
    have h' := h
    simp only [wfStr, List.all_cons, Bool.and_eq_true] at h'
    obtain ⟨hc0, hcs⟩ := h'
    have hc : (c = '"' ∨ c = '\\' ∨ c = '\n' ∨ c = '\t' ∨ c = '\r' ∨
        32 ≤ c.toNat) := by
      simp at hc0
      tauto
    show parseStringBody ((escapeChar c ++ escapeStr cs) ++ '"' :: rest) = _
    by_cases h1 : c = '"'
    · subst h1
      show parseStringBody ('\\' :: '"' :: (escapeStr cs ++ '"' :: rest)) = _
      rw [show parseStringBody ('\\' :: '"' :: (escapeStr cs ++ '"' :: rest)) =
        (parseStringBody (escapeStr cs ++ '"' :: rest)).map
          (fun p => ('"' :: p.1, p.2)) from rfl, ih rest hcs]
      rfl
    by_cases h2 : c = '\\'
    · subst h2
      show parseStringBody ('\\' :: '\\' :: (escapeStr cs ++ '"' :: rest)) = _
      rw [show parseStringBody ('\\' :: '\\' :: (escapeStr cs ++ '"' :: rest)) =
        (parseStringBody (escapeStr cs ++ '"' :: rest)).map
          (fun p => ('\\' :: p.1, p.2)) from rfl, ih rest hcs]
      rfl
    by_cases h3 : c = '\n'
    · subst h3
      show parseStringBody ('\\' :: 'n' :: (escapeStr cs ++ '"' :: rest)) = _
      rw [show parseStringBody ('\\' :: 'n' :: (escapeStr cs ++ '"' :: rest)) =
        (parseStringBody (escapeStr cs ++ '"' :: rest)).map
          (fun p => ('\n' :: p.1, p.2)) from rfl, ih rest hcs]
      rfl
    by_cases h4 : c = '\t'
    · subst h4
      show parseStringBody ('\\' :: 't' :: (escapeStr cs ++ '"' :: rest)) = _
      rw [show parseStringBody ('\\' :: 't' :: (escapeStr cs ++ '"' :: rest)) =
        (parseStringBody (escapeStr cs ++ '"' :: rest)).map
          (fun p => ('\t' :: p.1, p.2)) from rfl, ih rest hcs]
      rfl
    by_cases h5 : c = '\r'
    · subst h5
      show parseStringBody ('\\' :: 'r' :: (escapeStr cs ++ '"' :: rest)) = _
      rw [show parseStringBody ('\\' :: 'r' :: (escapeStr cs ++ '"' :: rest)) =
        (parseStringBody (escapeStr cs ++ '"' :: rest)).map
          (fun p => ('\r' :: p.1, p.2)) from rfl, ih rest hcs]
      rfl
    · have h32 : ¬ c.toNat < 32 := by
        rcases hc with h | h | h | h | h | h
        · exact absurd h h1
        · exact absurd h h2
        · exact absurd h h3
        · exact absurd h h4
        · exact absurd h h5
        · omega
      have he : escapeChar c = [c] := by
        simp [escapeChar, h1, h2, h3, h4, h5]
      rw [he]
      show parseStringBody (c :: (escapeStr cs ++ '"' :: rest)) = _
      rw [show parseStringBody (c :: (escapeStr cs ++ '"' :: rest)) =
        (parseStringBody (escapeStr cs ++ '"' :: rest)).map
          (fun p => (c :: p.1, p.2)) by
          simp [parseStringBody, h1, h2, h32], ih rest hcs]
      rfl

theorem numScan_append : ∀ (t rest : List Char), t.all isNumChar = true →
    delimOK rest = true →
    (t ++ rest).takeWhile isNumChar = t ∧
      (t ++ rest).dropWhile isNumChar = rest := by
  intro t
  induction t with
  | nil =>
    intro rest _ hd
    cases rest with
    | nil => exact ⟨rfl, rfl⟩
    | cons c cs =>
      have hc : isNumChar c = false := by
        simpa [delimOK] using hd
      simp [List.takeWhile_cons, List.dropWhile_cons, hc]
  | cons x xs ih =>
    intro rest hall hd
    obtain ⟨hx, hxs⟩ : isNumChar x = true ∧ xs.all isNumChar = true := by
      simpa [List.all_cons, Bool.and_eq_true] using hall
    obtain ⟨h1, h2⟩ := ih rest hxs hd
    simp [List.takeWhile_cons, List.dropWhile_cons, hx, h1, h2]

theorem all_takeWhile (p : Char → Bool) : ∀ s : List Char,
    (s.takeWhile p).all p = true := by
  intro s
  induction s with
  | nil => rfl
  | cons c t ih =>
    cases hc : p c <;> simp [List.takeWhile_cons, hc, ih, List.all_cons]

theorem parseNumber_wf : ∀ s t rest,
    parseNumber s = some (t, rest) → wfNum t = true := by
  intro s t rest h
  unfold parseNumber at h
  cases htw : s.takeWhile isNumChar with
  | nil => rw [htw] at h; simp at h
  | cons c tok =>
    rw [htw] at h
    dsimp only at h
    by_cases hc : (c = '-' || ('0' ≤ c && c ≤ '9')) = true
    · rw [if_pos hc] at h
      simp at h
      obtain ⟨h1, _⟩ := h
      have hall : (c :: tok).all isNumChar = true := by
        rw [← htw]; exact all_takeWhile isNumChar s
      rw [← h1]
      simp [wfNum, hc, hall]
    · rw [if_neg hc] at h
      cases h

theorem parseNumber_round : ∀ (t rest : List Char), wfNum t = true →
    delimOK rest = true → parseNumber (t ++ rest) = some (t, rest) := by
  intro t rest hwf hd
  cases t with
  | nil => simp [wfNum] at hwf
  | cons c tok =>
    obtain ⟨hc, hall⟩ :
        (c = '-' || ('0' ≤ c && c ≤ '9')) = true ∧
          (c :: tok).all isNumChar = true := by
      simpa [wfNum, Bool.and_eq_true] using hwf
    obtain ⟨ht, hdp⟩ := numScan_append (c :: tok) rest hall hd
    unfold parseNumber
    rw [ht]
    dsimp only
    rw [if_pos hc, hdp]

theorem wfArr_append : ∀ (l : List JVal) (v : JVal),
    wfArr l = true → wfVal v = true → wfArr (l ++ [v]) = true := by
  intro l
  induction l with
  | nil => intro v _ hv; simp [wfArr, hv]
  | cons w rest ih =>
    intro v hl hv
    obtain ⟨hw, hrest⟩ : wfVal w = true ∧ wfArr rest = true := by
      simpa [wfArr, Bool.and_eq_true] using hl
    simp [wfArr, List.cons_append, hw, ih v hrest hv]

theorem parse_wf : ∀ fuel,
    (∀ s v rest, parseValue fuel s = some (v, rest) → wfVal v = true) ∧
    (∀ s acc v rest, wfObj acc = true →
      parseObjEntries fuel s acc = some (v, rest) → wfVal v = true) ∧
    (∀ s acc v rest, wfArr acc = true →
      parseArrEntries fuel s acc = some (v, rest) → wfVal v = true) := by
  intro fuel
  induction fuel with
  | zero =>
    refine ⟨?_, ?_, ?_⟩
    · intro s v rest h; simp [parseValue] at h
    · intro s acc v rest _ h; simp [parseObjEntries] at h
    · intro s acc v rest _ h; simp [parseArrEntries] at h
  | succ fuel ih =>
    obtain ⟨ihv, iho, iha⟩ := ih
    refine ⟨?_, ?_, ?_⟩
    · intro s v rest h
      unfold parseValue at h
      split at h
      · -- object opener
        split at h
        · injection h with hh
          injection hh with h1 h2
          subst h1
          rfl
        · exact iho _ [] v rest rfl h
      · -- array opener
        split at h
        · injection h with hh
          injection hh with h1 h2
          subst h1
          rfl
        · exact iha _ [] v rest rfl h
      · -- string
        rename skipWs s = _ => hsw
        rcases hps : parseStringBody _ with _ | ⟨content, r₂⟩
        · rw [hps] at h; simp at h
        · rw [hps] at h
          simp at h
          obtain ⟨h1, _⟩ := h
          rw [← h1]
          exact parseStringBody_wf _ content r₂ hps
      · -- true literal
        split at h
        · injection h with hh
          injection hh with h1 h2
          subst h1
          rfl
        · cases h
      · -- false literal
        split at h
        · injection h with hh
          injection hh with h1 h2
          subst h1
          rfl
        · cases h
      · -- null literal
        split at h
        · injection h with hh
          injection hh with h1 h2
          subst h1
          rfl
        · cases h
      · -- number
        rcases hpn : parseNumber _ with _ | ⟨tok, r₂⟩
        · rw [hpn] at h; simp at h
        · rw [hpn] at h
          simp at h
          obtain ⟨h1, _⟩ := h
          rw [← h1]
          exact parseNumber_wf _ tok r₂ hpn
    · intro s acc v rest hacc h
      unfold parseObjEntries at h
      split at h
      · -- key string opener found
        split at h
        · cases h
        · -- parseStringBody succeeded
          rename parseStringBody _ = some _ => hps
          split at h
          · -- colon found
            rcases hpv : parseValue fuel _ with _ | ⟨⟨v₁, r₃⟩⟩
            · rw [hpv] at h; cases h
            · rw [hpv] at h
              dsimp only at h
              have hkey := parseStringBody_wf _ _ _ hps
              have hv₁ := ihv _ v₁ r₃ hpv
              have hins := wfObj_objInsert acc _ v₁ hacc hkey hv₁
              split at h
              · exact iho _ _ v rest hins h
              · injection h with hh
                injection hh with h1 h2
                subst h1
                exact hins
              · cases h
          · cases h
      · cases h
    · intro s acc v rest hacc h
      unfold parseArrEntries at h
      rcases hpv : parseValue fuel s with _ | ⟨⟨v₁, r₁⟩⟩
      · rw [hpv] at h; cases h
      · rw [hpv] at h
        dsimp only at h
        have hv₁ := ihv s v₁ r₁ hpv
        have happ := wfArr_append acc v₁ hacc hv₁
        split at h
        · exact iha _ _ v rest happ h
        · injection h with hh
          injection hh with h1 h2
          subst h1
          exact happ
        · cases h

theorem wfStr_maskMiddle (s : List Char) (h : wfStr s = true) :
    wfStr (maskMiddle s) = true := by
  unfold maskMiddle
  split
  · decide
  · simp only [wfStr, List.all_append, Bool.and_eq_true, List.all_eq_true] at h ⊢
    refine ⟨⟨?_, by decide⟩, ?_⟩
    · intro x hx
      exact h x ((List.take_sublist 2 s).subset hx)
    · intro x hx
      exact h x ((List.drop_sublist (s.length - 2) s).subset hx)

theorem ltHead_maskJSONMap : ∀ (k : List Char) (m : List (List Char × JVal)),
    ltHead k m = true → ltHead k (maskJSONMap m) = true := by
  intro k m h
  cases m with
  | nil => rfl
  | cons e rest =>
    rcases e with ⟨k₂, v₂⟩
    simpa [maskJSONMap, ltHead] using h

mutual

theorem maskJSONValue_wf : ∀ v, wfVal v = true → wfVal (maskJSONValue v) = true
  | .str s, h => h
  | .num t, h => h
  | .bool _, h => h
  | .null, h => h
  | .arr l, h => maskJSONArr_wf l h
  | .obj m, h => maskJSONMap_wf m h

theorem maskJSONArr_wf : ∀ l, wfArr l = true → wfArr (maskJSONArr l) = true
  | [], h => h
  | v :: rest, h => by
    obtain ⟨hv, hrest⟩ : wfVal v = true ∧ wfArr rest = true := by
      simpa [wfArr, Bool.and_eq_true] using h
    simp [maskJSONArr, wfArr, maskJSONValue_wf v hv, maskJSONArr_wf rest hrest]

theorem maskJSONMap_wf : ∀ m, wfObj m = true → wfObj (maskJSONMap m) = true
  | [], h => h
  | (k, v) :: rest, h => by
    obtain ⟨⟨⟨hk, hv⟩, hlt⟩, hrest⟩ :
        ((wfStr k = true ∧ wfVal v = true) ∧ ltHead k rest = true) ∧
          wfObj rest = true := by
      simpa [wfObj, Bool.and_eq_true] using h
    simp [maskJSONMap, wfObj, hk, maskJSONEntry_wf k v hv,
      ltHead_maskJSONMap k rest hlt, maskJSONMap_wf rest hrest]

theorem maskJSONEntry_wf : ∀ k v, wfVal v = true →
    wfVal (maskJSONEntry k v) = true
  | k, .str s, h => by
    cases hmt : shouldMaskField k with
    | maskNone => simpa [maskJSONEntry, hmt] using h
    | maskFull => simp [maskJSONEntry, hmt]; decide
    | maskPartial =>
      simpa [maskJSONEntry, hmt] using wfStr_maskMiddle s h
  | k, .num t, h => h
  | k, .bool _, h => h
  | k, .null, h => h
  | k, .arr l, h => maskJSONArr_wf l h
  | k, .obj m, h => maskJSONMap_wf m h

end

mutual

theorem shape_maskJSONValue : ∀ v, shape (maskJSONValue v) = shape v
  | .str _ => rfl
  | .num _ => rfl
  | .bool _ => rfl
  | .null => rfl
  | .arr l => by simp [maskJSONValue, shape, shapeArr_maskJSONArr l]
  | .obj m => by simp [maskJSONValue, shape, shapeObj_maskJSONMap m]

theorem shapeArr_maskJSONArr : ∀ l, shapeArr (maskJSONArr l) = shapeArr l
  | [] => rfl
  | v :: rest => by
    simp [maskJSONArr, shapeArr, shape_maskJSONValue v, shapeArr_maskJSONArr rest]

theorem shapeObj_maskJSONMap : ∀ m, shapeObj (maskJSONMap m) = shapeObj m
  | [] => rfl
  | (k, v) :: rest => by
    simp [maskJSONMap, shapeObj, shape_maskJSONEntry k v, shapeObj_maskJSONMap rest]

theorem shape_maskJSONEntry : ∀ k v, shape (maskJSONEntry k v) = shape v
  | k, .str s => by
    cases hmt : shouldMaskField k <;> simp [maskJSONEntry, hmt, shape]
  | k, .num _ => rfl
  | k, .bool _ => rfl
  | k, .null => rfl
  | k, .arr l => by simp [maskJSONEntry, shape, shapeArr_maskJSONArr l]
  | k, .obj m => by simp [maskJSONEntry, shape, shapeObj_maskJSONMap m]

end

theorem maskJSONMap_keys : ∀ m : List (List Char × JVal),
    (maskJSONMap m).map (fun kv => kv.1) = m.map (fun kv => kv.1) := by
  intro m
  induction m with
  | nil => rfl
  | cons e rest ih =>
    rcases e with ⟨k, v⟩
    simp [maskJSONMap, ih]

theorem isPrefixL_self_append : ∀ p rest : List Char,
    isPrefixL p (p ++ rest) = true := by
  intro p rest
  induction p with
  | nil => rfl
  | cons c t ih => simp [isPrefixL, ih]

theorem numHead_not_ws : ∀ c : Char,
    (c = '-' || ('0' ≤ c && c ≤ '9')) = true → isWs c = false := by
  intro c h
  simp only [Bool.or_eq_true, Bool.and_eq_true, decide_eq_true_eq] at h
  rcases h with h | ⟨h1, h2⟩
  · subst h; decide
  · by_contra hw
    simp only [Bool.not_eq_false] at hw
    simp only [isWs, Bool.or_eq_true, decide_eq_true_eq] at hw
    rcases hw with ((h | h) | h) | h <;> subst h <;> exact absurd h1 (by decide)

theorem numHead_ne_openers : ∀ c : Char,
    (c = '-' || ('0' ≤ c && c ≤ '9')) = true →
    c ≠ '{' ∧ c ≠ '[' ∧ c ≠ '"' ∧ c ≠ 't' ∧ c ≠ 'f' ∧ c ≠ 'n' := by
  intro c h
  simp only [Bool.or_eq_true, Bool.and_eq_true, decide_eq_true_eq] at h
  rcases h with h | ⟨h1, h2⟩
  · subst h; refine ⟨by decide, by decide, by decide, by decide, by decide, by decide⟩
  · refine ⟨?_, ?_, ?_, ?_, ?_, ?_⟩ <;>
      (intro he; subst he;
       first
       | exact absurd h1 (by decide)
       | exact absurd h2 (by decide))

theorem jsize_pos : ∀ v, 1 ≤ jsize v := by
  intro v
  cases v <;> simp [jsize] <;> omega

theorem wfObj_cons : ∀ (k : List Char) (v : JVal) (rest : List (List Char × JVal)),
    wfObj ((k, v) :: rest) = true ↔
      (wfStr k = true ∧ wfVal v = true ∧ ltHead k rest = true ∧
        wfObj rest = true) := by
  intro k v rest
  show (wfStr k && wfVal v && ltHead k rest && wfObj rest) = true ↔ _
  simp [Bool.and_eq_true, and_assoc]

theorem wfArr_cons : ∀ (v : JVal) (rest : List JVal),
    wfArr (v :: rest) = true ↔ (wfVal v = true ∧ wfArr rest = true) := by
  intro v rest
  show (wfVal v && wfArr rest) = true ↔ _
  simp [Bool.and_eq_true]

theorem wfNum_cons : ∀ (c : Char) (t : List Char),
    wfNum (c :: t) = true ↔
      ((c = '-' || ('0' ≤ c && c ≤ '9')) = true ∧
        (c :: t).all isNumChar = true) := by
  intro c t
  show ((c = '-' || ('0' ≤ c && c ≤ '9')) && (c :: t).all isNumChar) = true ↔ _
  simp [Bool.and_eq_true]

theorem serialize_head : ∀ v, wfVal v = true →
    ∃ c X, serialize v = c :: X ∧ isWs c = false ∧ c ≠ ']' ∧ c ≠ '\x7d' := by
  intro v hwf
  cases v with
  | str s => exact ⟨'"', escapeStr s ++ ['"'], rfl, by decide, by decide, by decide⟩
  | num t =>
    cases t with
    | nil => simp [wfVal, wfNum] at hwf
    | cons c t₂ =>
      have hc : (c = '-' || ('0' ≤ c && c ≤ '9')) = true :=
        ((wfNum_cons c t₂).mp hwf).1
      refine ⟨c, t₂, rfl, numHead_not_ws c hc, ?_, ?_⟩
      · simp only [Bool.or_eq_true, Bool.and_eq_true, decide_eq_true_eq] at hc
        rcases hc with h | ⟨h1, h2⟩
        · subst h; decide
        · intro he; subst he; exact absurd h2 (by decide)
      · simp only [Bool.or_eq_true, Bool.and_eq_true, decide_eq_true_eq] at hc
        rcases hc with h | ⟨h1, h2⟩
        · subst h; decide
        · intro he; subst he; exact absurd h2 (by decide)
  | bool b =>
    cases b with
    | false => exact ⟨'f', "alse".data, rfl, by decide, by decide, by decide⟩
    | true => exact ⟨'t', "rue".data, rfl, by decide, by decide, by decide⟩
  | null => exact ⟨'n', "ull".data, rfl, by decide, by decide, by decide⟩
  | arr l =>
    exact ⟨'[', serializeArr l ++ [']'], rfl, by decide, by decide, by decide⟩
  | obj m =>
    exact ⟨'\x7b', serializeObj m ++ ['\x7d'], rfl, by decide, by decide, by decide⟩

mutual

theorem jsize_le : ∀ v, wfVal v = true → jsize v ≤ (serialize v).length
  | .str s, _ => by
    simp [jsize, serialize, List.length_cons, List.length_append]
  | .num t, h => by
    cases t with
    | nil => exact absurd h (by simp [wfVal, wfNum])
    | cons c t₂ => simp [jsize, serialize]
  | .bool b, _ => by cases b <;> decide
  | .null, _ => by decide
  | .arr l, h => by
    cases l with
    | nil => decide
    | cons v es =>
      have hb := jsizeArr_le (v :: es) h (by simp)
      simp only [jsize, serialize, List.length_cons, List.length_append]
      omega
  | .obj m, h => by
    cases m with
    | nil => decide
    | cons e es =>
      rcases e with ⟨k, v⟩
      have hb := jsizeObj_le ((k, v) :: es) h (by simp)
      simp only [jsize, serialize, List.length_cons, List.length_append]
      omega

theorem jsizeArr_le : ∀ l, wfArr l = true → l ≠ [] →
    jsizeArr l ≤ (serializeArr l).length + 1
  | [], _, hne => absurd rfl hne
  | [v], h, _ => by
    have hv : wfVal v = true := ((wfArr_cons v []).mp h).1
    have := jsize_le v hv
    simp only [jsizeArr, serializeArr]
    omega
  | v :: e :: es, h, _ => by
    obtain ⟨hv, hrest⟩ := (wfArr_cons v (e :: es)).mp h
    have h1 := jsize_le v hv
    have h2 := jsizeArr_le (e :: es) hrest (by simp)
    have hd : jsizeArr (e :: es) = 1 + jsize e + jsizeArr es := rfl
    simp only [jsizeArr, serializeArr, List.length_append, List.length_cons]
    omega

theorem jsizeObj_le : ∀ m, wfObj m = true → m ≠ [] →
    jsizeObj m ≤ (serializeObj m).length + 1
  | [], _, hne => absurd rfl hne
  | [(k, v)], h, _ => by
    have hv : wfVal v = true := ((wfObj_cons k v []).mp h).2.1
    have := jsize_le v hv
    simp only [jsizeObj, serializeObj, List.length_cons, List.length_append]
    omega
  | (k, v) :: (k₂, v₂) :: es, h, _ => by
    obtain ⟨_, hv, _, hrest⟩ := (wfObj_cons k v ((k₂, v₂) :: es)).mp h
    have h1 := jsize_le v hv
    have h2 := jsizeObj_le ((k₂, v₂) :: es) hrest (by simp)
    have hd : jsizeObj ((k₂, v₂) :: es) = 1 + jsize v₂ + jsizeObj es := rfl
    simp only [jsizeObj, serializeObj, List.length_append, List.length_cons]
    omega

end

theorem skipWs_quote (t : List Char) : skipWs ('"' :: t) = '"' :: t :=
  skipWs_cons '"' t (by decide)

theorem skipWs_colon (t : List Char) : skipWs (':' :: t) = ':' :: t :=
  skipWs_cons ':' t (by decide)

theorem skipWs_comma (t : List Char) : skipWs (',' :: t) = ',' :: t :=
  skipWs_cons ',' t (by decide)

theorem skipWs_rbrace (t : List Char) : skipWs ('}' :: t) = '}' :: t :=
  skipWs_cons '}' t (by decide)

theorem skipWs_rbrack (t : List Char) : skipWs (']' :: t) = ']' :: t :=
  skipWs_cons ']' t (by decide)

theorem parseValue_str_step (f : Nat) (X : List Char) :
    parseValue (f + 1) ('"' :: X) =
      (parseStringBody X).map (fun p => (JVal.str p.1, p.2)) := rfl

theorem parseValue_true_step (f : Nat) (X : List Char) :
    parseValue (f + 1) ('t' :: X) =
      (if isPrefixL "rue".data X then some (JVal.bool true, X.drop 3)
       else none) := rfl

theorem parseValue_false_step (f : Nat) (X : List Char) :
    parseValue (f + 1) ('f' :: X) =
      (if isPrefixL "alse".data X then some (JVal.bool false, X.drop 4)
       else none) := rfl

theorem parseValue_null_step (f : Nat) (X : List Char) :
    parseValue (f + 1) ('n' :: X) =
      (if isPrefixL "ull".data X then some (JVal.null, X.drop 3)
       else none) := rfl

theorem parseValue_obj_step (f : Nat) (X : List Char) :
    parseValue (f + 1) ('\x7b' :: X) =
      (match skipWs X with
       | '\x7d' :: rest₂ => some (JVal.obj [], rest₂)
       | _ => parseObjEntries f X []) := rfl

theorem parseValue_arr_step (f : Nat) (X : List Char) :
    parseValue (f + 1) ('[' :: X) =
      (match skipWs X with
       | ']' :: rest₂ => some (JVal.arr [], rest₂)
       | _ => parseArrEntries f X []) := rfl

theorem parseValue_default (f : Nat) (c : Char) (X : List Char)
    (hws : isWs c = false) (h1 : c ≠ '\x7b') (h2 : c ≠ '[') (h3 : c ≠ '"')
    (h4 : c ≠ 't') (h5 : c ≠ 'f') (h6 : c ≠ 'n') :
    parseValue (f + 1) (c :: X) =
      (parseNumber (c :: X)).map (fun p => (JVal.num p.1, p.2)) := by
  unfold parseValue
  rw [skipWs_cons c X hws]
  split
  all_goals
    first
    | rfl
    | (rename_i heq
       injection heq with ha hb
       first
       | exact absurd ha h1
       | exact absurd ha h2
       | exact absurd ha h3
       | exact absurd ha h4
       | exact absurd ha h5
       | exact absurd ha h6)

mutual

theorem rt_val : ∀ (v : JVal), wfVal v = true → ∀ fuel rest, jsize v ≤ fuel →
    delimOK rest = true →
    parseValue fuel (serialize v ++ rest) = some (v, rest)
  | .str s, hwf, fuel, rest, hfuel, _ => by
    cases fuel with
    | zero => exact absurd hfuel (by simp [jsize])
    | succ f =>
      have hin : serialize (JVal.str s) ++ rest =
          '"' :: (escapeStr s ++ '"' :: rest) := by
        show ('"' :: (escapeStr s ++ ['"'])) ++ rest = _
        simp
      rw [hin, parseValue_str_step, parseStringBody_escape s rest hwf]
      rfl
  | .num t, hwf, fuel, rest, hfuel, hdelim => by
    cases fuel with
    | zero => exact absurd hfuel (by simp [jsize])
    | succ f =>
      cases t with
      | nil => exact absurd hwf (by simp [wfVal, wfNum])
      | cons c t₂ =>
        obtain ⟨hc, hall⟩ := (wfNum_cons c t₂).mp hwf
        have hne := numHead_ne_openers c hc
        have hin : serialize (JVal.num (c :: t₂)) ++ rest = c :: (t₂ ++ rest) := rfl
        rw [hin, parseValue_default f c (t₂ ++ rest) (numHead_not_ws c hc)
          hne.1 hne.2.1 hne.2.2.1 hne.2.2.2.1 hne.2.2.2.2.1 hne.2.2.2.2.2]
        rw [show c :: (t₂ ++ rest) = (c :: t₂) ++ rest from rfl,
          parseNumber_round (c :: t₂) rest hwf hdelim]
        rfl
  | .bool b, _, fuel, rest, hfuel, _ => by
    cases fuel with
    | zero => exact absurd hfuel (by simp [jsize])
    | succ f =>
      cases b with
      | true =>
        have hin : serialize (JVal.bool true) ++ rest =
            't' :: ("rue".data ++ rest) := rfl
        rw [hin, parseValue_true_step, isPrefixL_self_append]
        simp only [if_true]
        rw [show ("rue".data ++ rest).drop 3 = rest from List.drop_left "rue".data rest]
      | false =>
        have hin : serialize (JVal.bool false) ++ rest =
            'f' :: ("alse".data ++ rest) := rfl
        rw [hin, parseValue_false_step, isPrefixL_self_append]
        simp only [if_true]
        rw [show ("alse".data ++ rest).drop 4 = rest from List.drop_left "alse".data rest]
  | .null, _, fuel, rest, hfuel, _ => by
    cases fuel with
    | zero => exact absurd hfuel (by simp [jsize])
    | succ f =>
      have hin : serialize JVal.null ++ rest = 'n' :: ("ull".data ++ rest) := rfl
      rw [hin, parseValue_null_step, isPrefixL_self_append]
      simp only [if_true]
      rw [show ("ull".data ++ rest).drop 3 = rest from List.drop_left "ull".data rest]
  | .arr [], _, fuel, rest, hfuel, _ => by
    cases fuel with
    | zero => exact absurd hfuel (by simp [jsize])
    | succ f =>
      have hin : serialize (JVal.arr []) ++ rest = '[' :: (']' :: rest) := rfl
      rw [hin]
      rfl
  | .arr (v :: es), hwf, fuel, rest, hfuel, _ => by
    cases fuel with
    | zero => exact absurd hfuel (by simp [jsize])
    | succ f =>
      obtain ⟨hv, hes⟩ := (wfArr_cons v es).mp hwf
      have hin : serialize (JVal.arr (v :: es)) ++ rest =
          '[' :: (serializeArr (v :: es) ++ ']' :: rest) := by
        show ('[' :: (serializeArr (v :: es) ++ [']'])) ++ rest = _
        simp
      rw [hin, parseValue_arr_step]
      obtain ⟨c, X, hser, hcws, hcb, _⟩ := serialize_head v hv
      have hY : ∃ Y, serializeArr (v :: es) = c :: Y := by
        cases es with
        | nil => exact ⟨X, hser⟩
        | cons e₂ es₂ =>
          refine ⟨X ++ ',' :: serializeArr (e₂ :: es₂), ?_⟩
          show serialize v ++ ',' :: serializeArr (e₂ :: es₂) = _
          rw [hser]
          rfl
      obtain ⟨Y, hY⟩ := hY
      rw [show serializeArr (v :: es) ++ ']' :: rest =
        c :: (Y ++ ']' :: rest) by rw [hY]; rfl]
      rw [skipWs_cons c _ hcws]
      split
      · rename_i heq
        injection heq with ha hb
        exact absurd ha hcb
      · rw [show (c : Char) :: (Y ++ ']' :: rest) =
          serializeArr (v :: es) ++ ']' :: rest by rw [hY]; rfl]
        have hfu : jsizeArr (v :: es) ≤ f := by
          have hj : jsize (JVal.arr (v :: es)) = 1 + jsizeArr (v :: es) := rfl
          omega
        have hres := rt_arr v es hwf f rest [] hfu
        simpa using hres
  | .obj [], _, fuel, rest, hfuel, _ => by
    cases fuel with
    | zero => exact absurd hfuel (by simp [jsize])
    | succ f =>
      have hin : serialize (JVal.obj []) ++ rest = '{' :: ('}' :: rest) := rfl
      rw [hin]
      rfl
  | .obj ((k, v) :: es), hwf, fuel, rest, hfuel, _ => by
    cases fuel with
    | zero => exact absurd hfuel (by simp [jsize])
    | succ f =>
      have hin : serialize (JVal.obj ((k, v) :: es)) ++ rest =
          '{' :: (serializeObj ((k, v) :: es) ++ '}' :: rest) := by
        show ('{' :: (serializeObj ((k, v) :: es) ++ ['}'])) ++ rest = _
        simp
      rw [hin, parseValue_obj_step]
      have hY : ∃ Y, serializeObj ((k, v) :: es) = '"' :: Y := by
        cases es with
        | nil => exact ⟨_, rfl⟩
        | cons e₂ es₂ =>
          rcases e₂ with ⟨k₂, v₂⟩
          exact ⟨_, rfl⟩
      obtain ⟨Y, hY⟩ := hY
      rw [show serializeObj ((k, v) :: es) ++ '\x7d' :: rest =
        '"' :: (Y ++ '}' :: rest) by rw [hY]; rfl]
      rw [skipWs_quote]
      show parseObjEntries f ('"' :: (Y ++ '\x7d' :: rest)) [] =
        some (JVal.obj ((k, v) :: es), rest)
      rw [show ('"' : Char) :: (Y ++ '}' :: rest) =
        serializeObj ((k, v) :: es) ++ '}' :: rest by rw [hY]; rfl]
      have hfu : jsizeObj ((k, v) :: es) ≤ f := by
        have hj : jsize (JVal.obj ((k, v) :: es)) = 1 + jsizeObj ((k, v) :: es) := rfl
        omega
      have hres := rt_obj k v es hwf f rest [] hfu (by intro kv hkv; simp at hkv)
      simpa using hres
termination_by v => sizeOf v
decreasing_by all_goals (subst_vars; simp; omega)

theorem rt_arr : ∀ (v : JVal) (es : List JVal), wfArr (v :: es) = true →
    ∀ fuel rest acc, jsizeArr (v :: es) ≤ fuel →
    parseArrEntries fuel (serializeArr (v :: es) ++ ']' :: rest) acc =
      some (JVal.arr (acc ++ v :: es), rest)
  | v, [], hwf, fuel, rest, acc, hfuel => by
    have h0 : jsizeArr [v] = 1 + jsize v + jsizeArr [] := rfl
    cases fuel with
    | zero => omega
    | succ f =>
      have hv : wfVal v = true := ((wfArr_cons v []).mp hwf).1
      unfold parseArrEntries
      rw [show serializeArr [v] ++ ']' :: rest = serialize v ++ ']' :: rest from rfl]
      have hfu : jsize v ≤ f := by omega
      have hdel : delimOK (']' :: rest) = true := rfl
      rw [rt_val v hv f (']' :: rest) hfu hdel]
      rfl
  | v, e :: es₂, hwf, fuel, rest, acc, hfuel => by
    have h0 : jsizeArr (v :: e :: es₂) = 1 + jsize v + jsizeArr (e :: es₂) := rfl
    cases fuel with
    | zero => omega
    | succ f =>
      obtain ⟨hv, hes⟩ := (wfArr_cons v (e :: es₂)).mp hwf
      unfold parseArrEntries
      have hin : serializeArr (v :: e :: es₂) ++ ']' :: rest =
          serialize v ++ ',' :: (serializeArr (e :: es₂) ++ ']' :: rest) := by
        show (serialize v ++ ',' :: serializeArr (e :: es₂)) ++ ']' :: rest = _
        simp
      have hfu : jsize v ≤ f := by omega
      have hdel : delimOK (',' :: (serializeArr (e :: es₂) ++ ']' :: rest)) = true := rfl
      rw [hin, rt_val v hv f (',' :: (serializeArr (e :: es₂) ++ ']' :: rest)) hfu hdel]
      have hd : jsizeArr (e :: es₂) = 1 + jsize e + jsizeArr es₂ := rfl
      show parseArrEntries f (serializeArr (e :: es₂) ++ ']' :: rest) (acc ++ [v]) =
        some (JVal.arr (acc ++ v :: e :: es₂), rest)
      have hfu₂ : jsizeArr (e :: es₂) ≤ f := by omega
      rw [rt_arr e es₂ hes f rest (acc ++ [v]) hfu₂]
      simp
termination_by v es => sizeOf v + sizeOf es + 1
decreasing_by all_goals (subst_vars; simp; omega)

theorem rt_obj : ∀ (k : List Char) (v : JVal) (es : List (List Char × JVal)),
    wfObj ((k, v) :: es) = true →
    ∀ fuel rest acc, jsizeObj ((k, v) :: es) ≤ fuel →
    (∀ kv ∈ acc, lexLt kv.1 k = true) →
    parseObjEntries fuel (serializeObj ((k, v) :: es) ++ '}' :: rest) acc =
      some (JVal.obj (acc ++ (k, v) :: es), rest)
  | k, v, [], hwf, fuel, rest, acc, hfuel, hacc => by
    have h0 : jsizeObj [(k, v)] = 1 + jsize v + jsizeObj [] := rfl
    cases fuel with
    | zero => omega
    | succ f =>
      obtain ⟨hk, hv, hlt, hes⟩ := (wfObj_cons k v []).mp hwf
      unfold parseObjEntries
      have hin : serializeObj [(k, v)] ++ '}' :: rest =
          '"' :: (escapeStr k ++ '"' :: (':' :: (serialize v ++ '}' :: rest))) := by
        show ('"' :: (escapeStr k ++ '"' :: ':' :: serialize v)) ++ '}' :: rest = _
        simp
      have e1 := parseStringBody_escape k (':' :: (serialize v ++ '}' :: rest)) hk
      have hfu : jsize v ≤ f := by omega
      have hdel : delimOK ('}' :: rest) = true := rfl
      have e2 := rt_val v hv f ('}' :: rest) hfu hdel
      have e3 := objInsert_append acc k v hacc
      rw [hin]
      simp only [skipWs_quote, e1, skipWs_colon, e2, skipWs_rbrace, e3]
  | k, v, (k₂, v₂) :: es₂, hwf, fuel, rest, acc, hfuel, hacc => by
    have h0 : jsizeObj ((k, v) :: (k₂, v₂) :: es₂) =
        1 + jsize v + jsizeObj ((k₂, v₂) :: es₂) := rfl
    cases fuel with
    | zero => omega
    | succ f =>
      obtain ⟨hk, hv, hlt, hes⟩ := (wfObj_cons k v ((k₂, v₂) :: es₂)).mp hwf
      unfold parseObjEntries
      have hltk : lexLt k k₂ = true := by simpa [ltHead] using hlt
      have hin : serializeObj ((k, v) :: (k₂, v₂) :: es₂) ++ '}' :: rest =
          '"' :: (escapeStr k ++ '"' :: (':' ::
            (serialize v ++ ',' ::
              (serializeObj ((k₂, v₂) :: es₂) ++ '}' :: rest)))) := by
        show ('"' :: (escapeStr k ++ '"' :: ':' ::
          (serialize v ++ ',' :: serializeObj ((k₂, v₂) :: es₂)))) ++ '}' :: rest = _
        simp
      have e1 := parseStringBody_escape k
        (':' :: (serialize v ++ ',' ::
          (serializeObj ((k₂, v₂) :: es₂) ++ '}' :: rest))) hk
      have hfu : jsize v ≤ f := by omega
      have hdel : delimOK
          (',' :: (serializeObj ((k₂, v₂) :: es₂) ++ '}' :: rest)) = true := rfl
      have e2 := rt_val v hv f
        (',' :: (serializeObj ((k₂, v₂) :: es₂) ++ '}' :: rest)) hfu hdel
      have e3 := objInsert_append acc k v hacc
      have hd : jsizeObj ((k₂, v₂) :: es₂) = 1 + jsize v₂ + jsizeObj es₂ := rfl
      have hacc₂ : ∀ kv ∈ acc ++ [(k, v)], lexLt kv.1 k₂ = true := by
        intro kv hkv
        rcases List.mem_append.mp hkv with hkv | hkv
        · exact lexLt_trans kv.1 k k₂ (hacc kv hkv) hltk
        · simp at hkv
          subst hkv
          simpa using hltk
      have hfu₂ : jsizeObj ((k₂, v₂) :: es₂) ≤ f := by omega
      have hres := rt_obj k₂ v₂ es₂ hes f rest (acc ++ [(k, v)]) hfu₂ hacc₂
      rw [hin]
      simp only [skipWs_quote, e1, skipWs_colon, e2, skipWs_comma, e3]
      rw [hres]
      simp
termination_by k v es => sizeOf v + sizeOf es + 1
decreasing_by all_goals (subst_vars; simp; omega)

end

theorem parseJSON_wf : ∀ s v, parseJSON s = some v → wfVal v = true := by
  intro s v h
  unfold parseJSON at h
  rcases hpv : parseValue (s.length + 1) s with _ | ⟨⟨v₁, r⟩⟩
  · rw [hpv] at h; cases h
  · rw [hpv] at h
    dsimp only at h
    split at h
    · injection h with h1
      subst h1
      exact (parse_wf (s.length + 1)).1 s v₁ r hpv
    · cases h

theorem parse_serialize : ∀ v, wfVal v = true →
    parseJSON (serialize v) = some v := by
  intro v h
  unfold parseJSON
  have hfu : jsize v ≤ (serialize v).length + 1 := by
    have := jsize_le v h
    omega
  have hrt := rt_val v h ((serialize v).length + 1) [] hfu rfl
  rw [List.append_nil] at hrt
  rw [hrt]
  rfl

/-- C2: masking a decoded JSON value re-serialises to a parseable JSON text
that decodes exactly to the masked tree; the masked tree has the same
nesting shape as the input (strings erased, everything else — keys, nesting,
numbers, booleans, nulls — kept verbatim at every level) and the same
top-level key list. -/
theorem claim_C2 : ∀ s v, parseJSON s = some v →
    maskJSONString s = serialize (maskJSONValue v) ∧
    parseJSON (maskJSONString s) = some (maskJSONValue v) ∧
    shape (maskJSONValue v) = shape v ∧
    jkeys (maskJSONValue v) = jkeys v := by
  intro s v h
  have hs : s ≠ [] := by
    intro hnil
    subst hnil
    rw [show parseJSON ([] : List Char) = none from rfl] at h
    cases h
  have hmask : maskJSONString s = serialize (maskJSONValue v) := by
    unfold maskJSONString
    rw [if_neg hs, h]
  have hwf := parseJSON_wf s v h
  have hwf₂ := maskJSONValue_wf v hwf
  refine ⟨hmask, ?_, shape_maskJSONValue v, ?_⟩
  · rw [hmask]
    exact parse_serialize (maskJSONValue v) hwf₂
  · cases v <;>
      first
      | rfl
      | simpa [maskJSONValue, jkeys] using maskJSONMap_keys _

/-- Witness for claim_C2 at a concrete object containing a full-masked
string entry and a numeric entry. -/
theorem claim_C2_witness :
    parseJSON "\x7b\"password\":\"abc\",\"n\":1\x7d".data =
      some (JVal.obj [("n".data, JVal.num "1".data),
                      ("password".data, JVal.str "abc".data)]) ∧
    (maskJSONString "\x7b\"password\":\"abc\",\"n\":1\x7d".data =
      serialize (maskJSONValue (JVal.obj [("n".data, JVal.num "1".data),
        ("password".data, JVal.str "abc".data)])) ∧
    parseJSON (maskJSONString "\x7b\"password\":\"abc\",\"n\":1\x7d".data) =
      some (maskJSONValue (JVal.obj [("n".data, JVal.num "1".data),
        ("password".data, JVal.str "abc".data)])) ∧
    shape (maskJSONValue (JVal.obj [("n".data, JVal.num "1".data),
        ("password".data, JVal.str "abc".data)])) =
      shape (JVal.obj [("n".data, JVal.num "1".data),
        ("password".data, JVal.str "abc".data)]) ∧
    jkeys (maskJSONValue (JVal.obj [("n".data, JVal.num "1".data),
        ("password".data, JVal.str "abc".data)])) =
      jkeys (JVal.obj [("n".data, JVal.num "1".data),
        ("password".data, JVal.str "abc".data)])) :=
  ⟨rfl, claim_C2 "\x7b\"password\":\"abc\",\"n\":1\x7d".data
    (JVal.obj [("n".data, JVal.num "1".data),
      ("password".data, JVal.str "abc".data)]) rfl⟩

end Goslogx
